import Mathlib

/-
  Verification development for the streaming AES file-encryption firmware
  (src/archive/.../AES_hardware/main.c).

  Bytes are modelled as Nat (values < 256 in real traces; no arithmetic here
  depends on the bound unless stated).  Buffers passed as (pointer, length)
  pairs in C are modelled as a List Nat holding the live bytes, together with
  an explicit length where the C code tracks one separately.
-/

namespace AESStream

/-- CHUNK_SIZE constant of main.c (line 9). -/
def CHUNK_SIZE : Nat := 1024

/-- AES_BLOCK_SIZE constant of main.c (line 10). -/
def AES_BLOCK_SIZE : Nat := 16

/-- operation_mode_t of main.c (lines 28-31). -/
inductive operation_mode_t where
  | OP_ENCRYPT
  | OP_DECRYPT
  deriving DecidableEq

/-- session_state_t of main.c (lines 34-41). -/
structure session_state_t where
  mode : operation_mode_t
  iv : List Nat
  total_processed : Nat
  total_file_size : Nat
  is_first_chunk : Bool
  is_last_chunk : Bool
  deriving DecidableEq

/-- pkcs7_padding of main.c (lines 170-180): appends
    block_size - (len mod block_size) bytes, each holding that value.
    The C code writes the pad bytes into spare buffer capacity and updates
    the length in place; the list model appends them. -/
def pkcs7_padding (data : List Nat) (block_size : Nat) : List Nat :=
  data ++ List.replicate (block_size - data.length % block_size)
    (block_size - data.length % block_size)

/-- pkcs7_unpadding of main.c (lines 182-205): reads the last byte of the
    len live bytes as the pad value, fails when len = 0, the pad value is 0
    or exceeds len, or one of the last pad-value bytes differs from it;
    on success returns the reduced length (the C code only writes *data_len,
    never the buffer). -/
def pkcs7_unpadding (data : List Nat) (len : Nat) : Option Nat :=
  if len = 0 then none
  else
    let pad_value := data.getD (len - 1) 0
    if pad_value = 0 ∨ len < pad_value then none
    else if ∀ j < pad_value, data.getD (len - pad_value + j) 0 = pad_value then
      some (len - pad_value)
    else none

/-- The 16 bytes at positions [len - 16, len) of a buffer: models
    memcpy(dst, p + len - 16, 16) in main.c lines 303 and 354. -/
def tail_bytes (l : List Nat) (len : Nat) : List Nat :=
  (l.take len).drop (len - 16)

/-- The last 16 bytes of a list (used to state the chaining laws of a
    chained-block cipher). -/
def last_bytes16 (l : List Nat) : List Nat :=
  l.drop (l.length - 16)

/-- process_file_chunk_with_key of main.c (lines 246-360).

    Modelled from the spec: the raw block-cipher primitive (AES_Init /
    AES_Crypto / AES_Close of the vendor driver, not part of this
    repository's sources) is abstracted as two total functions
    Cenc Cdec : key -> chaining-vector -> chunk-bytes -> chunk-bytes,
    one chained-block (CBC) pass over a whole chunk per call, exactly the
    interface of spec section 6.  Driver init/transform faults are not
    modelled (the abstract primitive is total).

    Returns none where the C function returns -1, otherwise
    some (output buffer, output length, updated session). -/
def process_file_chunk_with_key
    (Cenc Cdec : List Nat → List Nat → List Nat → List Nat)
    (cap : Nat)
    (mode : operation_mode_t) (input_data : List Nat) (input_len : Nat)
    (session : session_state_t) (key : List Nat) :
    Option (List Nat × Nat × session_state_t) :=
  match mode with
  | .OP_ENCRYPT =>
      if session.is_last_chunk ∧ input_len % 16 ≠ 0 then
        if input_len ≤ cap then
          let padded := pkcs7_padding (input_data.take input_len) 16
          let out := Cenc key session.iv padded
          some (out, padded.length,
            { session with
                iv := tail_bytes out padded.length,
                total_processed := session.total_processed + input_len })
        else none
      else
        let out := Cenc key session.iv (input_data.take input_len)
        some (out, input_len,
          { session with
              iv := tail_bytes out input_len,
              total_processed := session.total_processed + input_len })
  | .OP_DECRYPT =>
      let raw := Cdec key session.iv (input_data.take input_len)
      let result :=
        if session.is_last_chunk then
          let last_byte := raw.getD (input_len - 1) 0
          if last_byte ≤ 16 ∧ 0 < last_byte then
            match pkcs7_unpadding raw input_len with
            | some new_len => (raw, new_len)
            | none => (raw, input_len)
          else (raw, input_len)
        else (raw, input_len)
      some (result.1, result.2,
        { session with
            iv := tail_bytes input_data input_len,
            total_processed := session.total_processed + input_len })

/-- Status lines emitted during the streaming phase (printf calls of
    new_stream_file_processing and send_encrypted_data_base64). -/
inductive Msg where
  | waitChunk (n : Nat)
  | chunkReceived (n : Nat)
  | b64 (payload : List Nat)
  | b64Error
  | chunkProcessed (inLen outLen : Nat)
  | progress (pct : Nat)
  | streamComplete
  | summary (received processed chunks : Nat)
  | success
  | warning (expected received : Nat)
  deriving DecidableEq

/-- The base64 alphabet of main.c line 211, as ASCII codes. -/
def base64_chars : List Nat :=
  (List.range 26).map (fun i => 65 + i) ++ (List.range 26).map (fun i => 97 + i) ++
    (List.range 10).map (fun i => 48 + i) ++ [43, 47]

/-- base64_chars[n and 0x3F] of main.c lines 233-236. -/
def b64_idx (n : Nat) : Nat := base64_chars.getD (n &&& 63) 0

/-- The encoding loop of send_encrypted_data_base64 (main.c lines 228-237),
    three input bytes per four output characters, 61 is the ASCII code of
    the pad character. -/
def b64_encode_groups : List Nat → List Nat
  | [] => []
  | [a] =>
      let t := a <<< 16
      [b64_idx (t >>> 18), b64_idx (t >>> 12), 61, 61]
  | [a, b] =>
      let t := a <<< 16 ||| b <<< 8
      [b64_idx (t >>> 18), b64_idx (t >>> 12), b64_idx (t >>> 6), 61]
  | a :: b :: c :: rest =>
      let t := a <<< 16 ||| b <<< 8 ||| c
      b64_idx (t >>> 18) :: b64_idx (t >>> 12) :: b64_idx (t >>> 6) :: b64_idx t ::
        b64_encode_groups rest

/-- send_encrypted_data_base64 of main.c (lines 210-241): emits the error
    line when 4*((len+2)/3) reaches the 1500-byte static buffer, otherwise
    the B64 line holding the encoding of the len live bytes. -/
def send_encrypted_data_base64 (data : List Nat) (len : Nat) : Msg :=
  if 1500 ≤ 4 * ((len + 2) / 3) then Msg.b64Error
  else Msg.b64 (b64_encode_groups (data.take len))

/-- Result of the streaming phase: emitted lines, concatenation of the
    reported output bytes of every chunk, and the final counters. -/
structure stream_result where
  msgs : List Msg
  out : List Nat
  received : Nat
  processed : Nat
  chunks : Nat
  deriving DecidableEq

/-- The while loop of new_stream_file_processing (main.c lines 476-516).

    pending models the bytes the host will supply: a read of n bytes takes
    n from the front, and a supply shorter than the requested chunk is the
    short read that makes the C loop break.  cap generalizes the constant
    CHUNK_SIZE (the source fixes cap = 1024; spec sections 3 and 8 treat the
    capacity as a parameter that is a multiple of the block size).  fuel
    bounds the number of iterations; every theorem supplies fuel at least
    the number of outstanding bytes, which the loop can never exceed, so the
    fuel-exhausted branch is unreachable there. -/
def stream_loop (Cenc Cdec : List Nat → List Nat → List Nat → List Nat)
    (mode : operation_mode_t) (key : List Nat) (cap file_size : Nat) :
    Nat → session_state_t → List Nat → Nat → Nat → stream_result
  | 0, session, _, total_received, chunk_count =>
      ⟨[], [], total_received, session.total_processed, chunk_count⟩
  | fuel + 1, session, pending, total_received, chunk_count =>
      if total_received < file_size then
        let chunk_count' := chunk_count + 1
        let remaining := file_size - total_received
        let chunk_size := if remaining > cap then cap else remaining
        if pending.length < chunk_size then
          ⟨[Msg.waitChunk chunk_size], [], total_received,
            session.total_processed, chunk_count'⟩
        else
          let received := pending.take chunk_size
          let total_received' := total_received + chunk_size
          let session' :=
            if file_size ≤ total_received' then
              { session with is_last_chunk := true }
            else session
          match process_file_chunk_with_key Cenc Cdec cap mode received chunk_size
              session' key with
          | none =>
              ⟨[Msg.waitChunk chunk_size, Msg.chunkReceived chunk_size,
                 Msg.b64 [], Msg.chunkProcessed chunk_size 0],
               [], total_received', session'.total_processed, chunk_count'⟩
          | some (out_data, out_len, session2) =>
              let rest := stream_loop Cenc Cdec mode key cap file_size fuel
                session2 (pending.drop chunk_size) total_received' chunk_count'
              ⟨Msg.waitChunk chunk_size :: Msg.chunkReceived chunk_size ::
                 send_encrypted_data_base64 out_data out_len ::
                 Msg.chunkProcessed chunk_size out_len ::
                 Msg.progress (total_received' * 100 / file_size) :: rest.msgs,
               out_data.take out_len ++ rest.out,
               rest.received, rest.processed, rest.chunks⟩
      else ⟨[], [], total_received, session.total_processed, chunk_count⟩

/-- The streaming phase of new_stream_file_processing (main.c lines
    460-527): session initialization, the chunk loop, and the terminal
    STREAM_COMPLETE / SUMMARY / SUCCESS-or-WARNING lines. -/
def new_stream_streaming (Cenc Cdec : List Nat → List Nat → List Nat → List Nat)
    (mode : operation_mode_t) (key iv : List Nat) (cap file_size : Nat)
    (data : List Nat) : stream_result :=
  let session0 : session_state_t := ⟨mode, iv, 0, file_size, false, false⟩
  let r := stream_loop Cenc Cdec mode key cap file_size file_size session0 data 0 0
  ⟨r.msgs ++ [Msg.streamComplete, Msg.summary r.received r.processed r.chunks,
      if r.received = file_size then Msg.success
      else Msg.warning file_size r.received],
   r.out, r.received, r.processed, r.chunks⟩

/-- The Encrypt pipeline over a whole plaintext: declared size is the
    plaintext length and the host supplies exactly those bytes. -/
def stream_encrypt (Cenc Cdec : List Nat → List Nat → List Nat → List Nat)
    (key iv : List Nat) (cap : Nat) (pt : List Nat) : List Nat :=
  (new_stream_streaming Cenc Cdec .OP_ENCRYPT key iv cap pt.length pt).out

/-- The Decrypt pipeline over a whole ciphertext. -/
def stream_decrypt (Cenc Cdec : List Nat → List Nat → List Nat → List Nat)
    (key iv : List Nat) (cap : Nat) (ct : List Nat) : List Nat :=
  (new_stream_streaming Cenc Cdec .OP_DECRYPT key iv cap ct.length ct).out

/-- uint32 subtraction: current_time - last_time as computed on 32-bit
    unsigned values in main.c lines 125 and 130. -/
def u32_sub (a b : Nat) : Nat :=
  (a % 2 ^ 32 + 2 ^ 32 - b % 2 ^ 32) % 2 ^ 32

/-- Why a run of the read_exact_data loop ended. -/
inductive read_exit where
  | filled
  | silence
  | overall
  | starved
  deriving DecidableEq

/-- The polling loop of read_exact_data (main.c lines 112-135).

    Modelled from the spec: the UART receive flag and the millisecond tick
    counter are external peripherals (section 6), modelled as a finite trace
    of poll outcomes, each either (some b, t) - a byte b available with
    get_current_time reading t - or (none, t) - no byte, current time t.
    An exhausted trace (exit starved) is a model artifact: the C loop would
    keep polling, so theorems exclude it. -/
def read_exact_go (exact_len timeout start : Nat) :
    List (Option Nat × Nat) → Nat → List Nat → Nat →
    List Nat × Nat × read_exit
  | events, bytes_read, acc, last_receive_time =>
    if bytes_read < exact_len then
      match events with
      | [] => (acc, bytes_read, .starved)
      | (some b, t) :: rest =>
          read_exact_go exact_len timeout start rest (bytes_read + 1)
            (acc ++ [b]) t
      | (none, t) :: rest =>
          if u32_sub t last_receive_time > 500000 then (acc, bytes_read, .silence)
          else if u32_sub t start > timeout then (acc, bytes_read, .overall)
          else read_exact_go exact_len timeout start rest bytes_read acc
            last_receive_time
    else (acc, bytes_read, .filled)

/-- read_exact_data of main.c (lines 104-139): timeout budget is
    timeout_ms * 1000 on uint32, both clocks start at the entry time t0. -/
def read_exact_data (events : List (Option Nat × Nat)) (exact_len timeout_ms t0 : Nat) :
    List Nat × Nat × read_exit :=
  read_exact_go exact_len (timeout_ms * 1000 % 2 ^ 32) t0 events 0 [] t0

/-- Big-endian decoding of the 4 size bytes (main.c lines 447-448). -/
def parse_file_size (b : List Nat) : Nat :=
  b.getD 0 0 <<< 24 ||| b.getD 1 0 <<< 16 ||| b.getD 2 0 <<< 8 ||| b.getD 3 0

/-- Outcome of the AwaitSize negotiation step. -/
inductive size_result where
  | sizeReadFailed
  | invalidSize
  | accepted (n : Nat)
  deriving DecidableEq

/-- The AwaitSize step of new_stream_file_processing (main.c lines 437-458):
    received is what read_exact_data returned; fewer than 4 bytes aborts
    with the size-read failure, then the decoded size is rejected when 0 or
    above 1,000,000. -/
def await_size (received : List Nat) : size_result :=
  if received.length ≠ 4 then .sizeReadFailed
  else
    let file_size := parse_file_size received
    if file_size = 0 ∨ file_size > 1000000 then .invalidSize
    else .accepted file_size

/-- Proof auxiliary (not source code): the padded form the Encrypt
    direction produces for a whole plaintext - pkcs7 applied exactly when
    the total length is unaligned, mirroring the final-chunk test of main.c
    line 262. -/
def pad_tail (d : List Nat) : List Nat :=
  if d.length % 16 = 0 then d else pkcs7_padding d 16

/-- Proof auxiliary (not source code): the trailing bytes of a buffer form
    a pattern that the final-chunk unpad path of main.c lines 339-346 would
    accept and strip - last byte p in 1..16 with the last p bytes all
    equal to p. -/
def looks_padded (l : List Nat) : Prop :=
  1 ≤ l.getD (l.length - 1) 0 ∧ l.getD (l.length - 1) 0 ≤ 16 ∧
    ∀ j < l.getD (l.length - 1) 0,
      l.getD (l.length - l.getD (l.length - 1) 0 + j) 0 = l.getD (l.length - 1) 0

instance (l : List Nat) : Decidable (looks_padded l) := by
  unfold looks_padded; infer_instance

/-- A degenerate chunk cipher (each chunk passes through unchanged) used to
    instantiate witnesses and counterexamples; it satisfies all the
    chained-block laws assumed of the external primitive. -/
def id_cipher : List Nat → List Nat → List Nat → List Nat := fun _ _ d => d

/-- The default key / default IV of main.c lines 405 and 423. -/
def default_key : List Nat := [1, 2, 3, 4, 5, 6, 7, 8, 9, 10, 11, 12, 13, 14, 15, 16]

/- ------------------------------------------------------------------ -/
/- Helper lemmas                                                      -/
/- ------------------------------------------------------------------ -/

lemma getD_replicate (n a d i : Nat) (h : i < n) :
    (List.replicate n a).getD i d = a := by
  simp [List.getD_eq_getElem?_getD, List.getElem?_replicate, h]

lemma shiftLeft_lor_eq_add (a : Nat) :
    ∀ (n b : Nat), b < 2 ^ n → a <<< n ||| b = a * 2 ^ n + b := by
  intro n
  induction n generalizing a with
  | zero =>
    intro b hb
    interval_cases b
    simp [Nat.shiftLeft_eq]
  | succ n ih =>
    intro b hb
    have hb2 : b / 2 < 2 ^ n := by
      have : (2 : Nat) ^ (n + 1) = 2 * 2 ^ n := by ring
      omega
    have h1 : a <<< (n + 1) = Nat.bit false (a <<< n) := by
      simp [Nat.bit, Nat.shiftLeft_eq, Nat.pow_succ]
      ring
    have h2 : b = Nat.bit (b % 2 = 1) (b / 2) := by
      simp only [Nat.bit]
      rcases Nat.mod_two_eq_zero_or_one b with h | h <;> simp [h] <;> omega
    rw [h1, h2, Nat.lor_bit, Bool.false_or, ih a (b / 2) hb2]
    rcases Nat.mod_two_eq_zero_or_one b with h | h <;>
      simp [Nat.bit, h, Nat.pow_succ] <;> ring

/-- Removing an appended non-empty uniform pad block restores the original
    length, for every pad value at least 1. -/
lemma pkcs7_unpadding_append_replicate (data : List Nat) (pv : Nat) (h1 : 1 ≤ pv) :
    pkcs7_unpadding (data ++ List.replicate pv pv) (data.length + pv)
      = some data.length := by
  simp only [pkcs7_unpadding]
  have hne : ¬(data.length + pv = 0) := by omega
  have hlast : (data ++ List.replicate pv pv).getD (data.length + pv - 1) 0 = pv := by
    rw [List.getD_append_right _ _ _ _ (by omega)]
    have he : data.length + pv - 1 - data.length = pv - 1 := by omega
    rw [he]
    exact getD_replicate pv pv 0 (pv - 1) (by omega)
  rw [if_neg hne, hlast]
  have hcond : ¬(pv = 0 ∨ data.length + pv < pv) := by omega
  rw [if_neg hcond]
  have hall : ∀ j < pv,
      (data ++ List.replicate pv pv).getD (data.length + pv - pv + j) 0 = pv := by
    intro j hj
    have he : data.length + pv - pv + j = data.length + j := by omega
    rw [he, List.getD_append_right _ _ _ _ (by omega)]
    have he2 : data.length + j - data.length = j := by omega
    rw [he2]
    exact getD_replicate pv pv 0 j hj
  rw [if_pos hall]
  congr 1
  omega

/- ------------------------------------------------------------------ -/
/- C4                                                                 -/
/- ------------------------------------------------------------------ -/

/-- C4: pkcs7_padding with block size 16 appends exactly 16 - (L mod 16)
    bytes, each holding that pad value - a full 16-byte block when L is a
    multiple of 16 and never zero bytes - the first L bytes are unchanged,
    and pkcs7_unpadding on the padded result restores exactly the original
    length L. -/
theorem C4_pkcs7_roundtrip :
    ∀ data : List Nat,
      pkcs7_padding data 16
          = data ++ List.replicate (16 - data.length % 16) (16 - data.length % 16) ∧
      (pkcs7_padding data 16).length = data.length + (16 - data.length % 16) ∧
      1 ≤ 16 - data.length % 16 ∧ 16 - data.length % 16 ≤ 16 ∧
      (data.length % 16 = 0 → 16 - data.length % 16 = 16) ∧
      (pkcs7_padding data 16).take data.length = data ∧
      pkcs7_unpadding (pkcs7_padding data 16) ((pkcs7_padding data 16).length)
        = some data.length := by
  intro data
  have hpv : 1 ≤ 16 - data.length % 16 := by omega
  have hlen : (pkcs7_padding data 16).length
      = data.length + (16 - data.length % 16) := by
    simp [pkcs7_padding]
  refine ⟨rfl, hlen, hpv, by omega, by omega, ?_, ?_⟩
  · simp only [pkcs7_padding]
    rw [List.take_append_of_le_length (by omega), List.take_length]
  · rw [hlen]
    exact pkcs7_unpadding_append_replicate data _ hpv

/-- C4 witness: the contract evaluated at the 3-byte buffer [5, 6, 7]. -/
theorem C4_pkcs7_roundtrip_witness :
    pkcs7_unpadding (pkcs7_padding [5, 6, 7] 16) ((pkcs7_padding [5, 6, 7] 16).length)
      = some 3 :=
  (C4_pkcs7_roundtrip [5, 6, 7]).2.2.2.2.2.2

/- ------------------------------------------------------------------ -/
/- C5                                                                 -/
/- ------------------------------------------------------------------ -/

/-- C5: pkcs7_unpadding fails exactly when the live length is zero, the
    last byte p is 0, p exceeds the length, or one of the last p bytes
    differs from p; otherwise it succeeds and the returned length is the
    old length decreased by p.  (The embedding is a pure function of the
    buffer: the C function never writes the buffer and writes *data_len
    only on the success path, so on failure both are left unchanged.) -/
theorem C5_pkcs7_unpadding_contract :
    ∀ (data : List Nat) (len : Nat),
      (pkcs7_unpadding data len = none ↔
        len = 0 ∨ data.getD (len - 1) 0 = 0 ∨ len < data.getD (len - 1) 0 ∨
          ∃ j < data.getD (len - 1) 0,
            data.getD (len - data.getD (len - 1) 0 + j) 0 ≠ data.getD (len - 1) 0) ∧
      (pkcs7_unpadding data len = none ∨
        pkcs7_unpadding data len = some (len - data.getD (len - 1) 0)) := by
  intro data len
  simp only [pkcs7_unpadding]
  split_ifs with h1 h2 h3
  · simp [h1]
  · constructor
    · simp only [eq_self_iff_true, true_iff]
      tauto
    · exact Or.inl rfl
  · have hne : ¬ ∃ j < data.getD (len - 1) 0,
        data.getD (len - data.getD (len - 1) 0 + j) 0 ≠ data.getD (len - 1) 0 := by
      push_neg
      exact h3
    constructor
    · constructor
      · intro h
        exact absurd h (by simp)
      · intro h
        rcases h with h | h | h | h
        · exact absurd h h1
        · exact absurd (Or.inl h) h2
        · exact absurd (Or.inr h) h2
        · exact absurd h hne
    · exact Or.inr rfl
  · push_neg at h3
    constructor
    · constructor
      · intro _
        exact Or.inr (Or.inr (Or.inr h3))
      · intro _
        rfl
    · exact Or.inl rfl

/-- C5 witness: the contract evaluated at a buffer with a valid 2-byte pad. -/
theorem C5_pkcs7_unpadding_contract_witness :
    pkcs7_unpadding [9, 2, 2] 3 = none ∨ pkcs7_unpadding [9, 2, 2] 3 = some 1 :=
  (C5_pkcs7_unpadding_contract [9, 2, 2] 3).2

/- ------------------------------------------------------------------ -/
/- C7                                                                 -/
/- ------------------------------------------------------------------ -/

/-- C7: the declared file size is decoded from the 4 received bytes as
    big-endian unsigned 32-bit; the session is aborted with the
    invalid-size error exactly when the decoded size is 0 or above
    1,000,000 (so 00 00 00 00 is rejected, 00 0F 42 40 accepted,
    00 0F 42 41 rejected), and a short size read aborts with the
    size-read failure instead. -/
theorem C7_await_size_contract :
    await_size [0, 0, 0, 0] = .invalidSize ∧
    await_size [0, 15, 66, 64] = .accepted 1000000 ∧
    await_size [0, 15, 66, 65] = .invalidSize ∧
    (∀ received : List Nat, received.length ≠ 4 →
      await_size received = .sizeReadFailed) ∧
    (∀ received : List Nat, received.length = 4 →
      (await_size received = .invalidSize ↔
        parse_file_size received = 0 ∨ parse_file_size received > 1000000) ∧
      (¬(parse_file_size received = 0 ∨ parse_file_size received > 1000000) →
        await_size received = .accepted (parse_file_size received))) ∧
    (∀ b0 b1 b2 b3 : Nat, b0 < 256 → b1 < 256 → b2 < 256 → b3 < 256 →
      parse_file_size [b0, b1, b2, b3]
        = b0 * 2 ^ 24 + b1 * 2 ^ 16 + b2 * 2 ^ 8 + b3) := by
  refine ⟨by decide, by decide, by decide, ?_, ?_, ?_⟩
  · intro received h
    simp [await_size, h]
  · intro received h
    constructor
    · constructor
      · intro ha
        by_contra hn
        simp [await_size, h, hn] at ha
      · intro hc
        simp [await_size, h, hc]
    · intro hc
      simp [await_size, h, hc]
  · intro b0 b1 b2 b3 h0 h1 h2 h3
    simp only [parse_file_size, List.getD]
    have e3 : b2 <<< 8 ||| b3 = b2 * 2 ^ 8 + b3 :=
      shiftLeft_lor_eq_add b2 8 b3 (by omega)
    have hlt3 : b2 * 2 ^ 8 + b3 < 2 ^ 16 := by omega
    have e2 : b1 <<< 16 ||| (b2 * 2 ^ 8 + b3) = b1 * 2 ^ 16 + (b2 * 2 ^ 8 + b3) :=
      shiftLeft_lor_eq_add b1 16 _ hlt3
    have hlt2 : b1 * 2 ^ 16 + (b2 * 2 ^ 8 + b3) < 2 ^ 24 := by omega
    have e1 : b0 <<< 24 ||| (b1 * 2 ^ 16 + (b2 * 2 ^ 8 + b3))
        = b0 * 2 ^ 24 + (b1 * 2 ^ 16 + (b2 * 2 ^ 8 + b3)) :=
      shiftLeft_lor_eq_add b0 24 _ hlt2
    calc b0 <<< 24 ||| b1 <<< 16 ||| b2 <<< 8 ||| b3
        = b0 <<< 24 ||| (b1 <<< 16 ||| (b2 <<< 8 ||| b3)) := by
          rw [Nat.lor_assoc, Nat.lor_assoc]
      _ = b0 * 2 ^ 24 + (b1 * 2 ^ 16 + (b2 * 2 ^ 8 + b3)) := by
          rw [e3, e2, e1]
      _ = b0 * 2 ^ 24 + b1 * 2 ^ 16 + b2 * 2 ^ 8 + b3 := by omega

/-- C7 witness: the short-read and in-range legs evaluated concretely. -/
theorem C7_await_size_contract_witness :
    await_size [1, 2] = .sizeReadFailed ∧ parse_file_size [0, 1, 2, 3] = 66051 :=
  ⟨C7_await_size_contract.2.2.2.1 [1, 2] (by decide),
   by
    have h := C7_await_size_contract.2.2.2.2.2 0 1 2 3
      (by decide) (by decide) (by decide) (by decide)
    simpa using h⟩

/- ------------------------------------------------------------------ -/
/- C6                                                                 -/
/- ------------------------------------------------------------------ -/

lemma read_exact_go_spec (exact_len timeout start : Nat) :
    ∀ (events : List (Option Nat × Nat)) (bytes_read : Nat) (acc : List Nat)
      (lrt : Nat),
      acc.length = bytes_read → bytes_read ≤ exact_len →
      ((read_exact_go exact_len timeout start events bytes_read acc lrt).1.length
          = (read_exact_go exact_len timeout start events bytes_read acc lrt).2.1) ∧
      (read_exact_go exact_len timeout start events bytes_read acc lrt).2.1
          ≤ exact_len ∧
      ((read_exact_go exact_len timeout start events bytes_read acc lrt).2.2
          = .filled →
        (read_exact_go exact_len timeout start events bytes_read acc lrt).2.1
          = exact_len) := by
  intro events
  induction events with
  | nil =>
    intro br acc lrt hacc hle
    simp only [read_exact_go]
    split_ifs with h
    · exact ⟨hacc, hle, by simp⟩
    · exact ⟨hacc, hle, fun _ => show br = exact_len by omega⟩
  | cons ev rest ih =>
    intro br acc lrt hacc hle
    obtain ⟨ob, t⟩ := ev
    cases ob with
    | some b =>
      simp only [read_exact_go]
      split_ifs with h
      · exact ih (br + 1) (acc ++ [b]) t (by simp [hacc]) (by omega)
      · exact ⟨hacc, hle, fun _ => show br = exact_len by omega⟩
    | none =>
      simp only [read_exact_go]
      split_ifs with h h2 h3
      · exact ⟨hacc, show br ≤ exact_len by omega, by simp⟩
      · exact ⟨hacc, show br ≤ exact_len by omega, by simp⟩
      · exact ih br acc lrt hacc hle
      · exact ⟨hacc, hle, fun _ => show br = exact_len by omega⟩

/-- C6: read_exact_data returns exactly the bytes it stored (so it never
    stores more than exact_len), that count never exceeds exact_len, a
    short count is only possible when the loop exited through the 500 ms
    inter-byte silence window or the overall timeout budget, and an exit
    with neither timeout (the loop condition becoming false) returns
    exactly exact_len bytes.  The starved exit is the model artifact of a
    finite poll trace and is excluded. -/
theorem C6_read_exact_contract :
    ∀ (events : List (Option Nat × Nat)) (exact_len timeout_ms t0 : Nat),
      ((read_exact_data events exact_len timeout_ms t0).1.length
          = (read_exact_data events exact_len timeout_ms t0).2.1) ∧
      (read_exact_data events exact_len timeout_ms t0).2.1 ≤ exact_len ∧
      ((read_exact_data events exact_len timeout_ms t0).2.2 ≠ .starved →
        (read_exact_data events exact_len timeout_ms t0).2.1 < exact_len →
        (read_exact_data events exact_len timeout_ms t0).2.2 = .silence ∨
          (read_exact_data events exact_len timeout_ms t0).2.2 = .overall) ∧
      ((read_exact_data events exact_len timeout_ms t0).2.2 = .filled →
        (read_exact_data events exact_len timeout_ms t0).2.1 = exact_len) := by
  intro events el tm t0
  simp only [read_exact_data]
  have h := read_exact_go_spec el (tm * 1000 % 2 ^ 32) t0 events 0 [] t0 rfl
    (Nat.zero_le _)
  refine ⟨h.1, h.2.1, ?_, h.2.2⟩
  intro hns hlt
  cases he : (read_exact_go el (tm * 1000 % 2 ^ 32) t0 events 0 [] t0).2.2 with
  | filled =>
    have := h.2.2 he
    omega
  | silence => exact Or.inl rfl
  | overall => exact Or.inr rfl
  | starved => exact absurd he hns

/-- C6 witness: a trace whose first poll happens after 500 ms of silence
    makes a 2-byte read return short through the silence exit. -/
theorem C6_read_exact_contract_witness :
    (read_exact_data [(none, 600001)] 2 1000 0).2.2 = read_exit.silence ∨
      (read_exact_data [(none, 600001)] 2 1000 0).2.2 = read_exit.overall :=
  (C6_read_exact_contract [(none, 600001)] 2 1000 0).2.2.1 (by decide) (by decide)

/- ------------------------------------------------------------------ -/
/- C3                                                                 -/
/- ------------------------------------------------------------------ -/

/-- C3: every successful chunk replaces the session chaining vector by the
    last 16 bytes of the chunk's produced (possibly padded) cipher output
    in Encrypt mode, and by the last 16 bytes of the chunk's received
    ciphertext input - not of its decrypted output - in Decrypt mode;
    the loop hands exactly this updated session to the next chunk, so the
    vector entering chunk i+1 is the ciphertext tail of chunk i. -/
theorem C3_chaining_vector_update :
    ∀ (Cenc Cdec : List Nat → List Nat → List Nat → List Nat) (cap : Nat)
      (mode : operation_mode_t) (input_data : List Nat) (input_len : Nat)
      (s : session_state_t) (key : List Nat)
      (out : List Nat) (out_len : Nat) (s2 : session_state_t),
      process_file_chunk_with_key Cenc Cdec cap mode input_data input_len s key
          = some (out, out_len, s2) →
      (mode = .OP_ENCRYPT → s2.iv = tail_bytes out out_len) ∧
      (mode = .OP_DECRYPT → s2.iv = tail_bytes input_data input_len) := by
  intro Cenc Cdec cap mode input_data input_len s key out out_len s2 h
  cases mode with
  | OP_ENCRYPT =>
    refine ⟨fun _ => ?_, fun hd => by cases hd⟩
    simp only [process_file_chunk_with_key] at h
    split_ifs at h with h1
    · simp only [Option.some.injEq, Prod.mk.injEq] at h
      obtain ⟨h3, h4, h5⟩ := h
      subst h3; subst h4; subst h5
      rfl
    · simp only [Option.some.injEq, Prod.mk.injEq] at h
      obtain ⟨h3, h4, h5⟩ := h
      subst h3; subst h4; subst h5
      rfl
  | OP_DECRYPT =>
    refine ⟨fun he => ?_, fun _ => ?_⟩
    · cases he
    · simp only [process_file_chunk_with_key] at h
      have h3 := congrArg (fun p => (p.2.2 : session_state_t)) (Option.some.inj h)
      simp only at h3
      rw [← h3]

/-- C3 witness: the Encrypt leg evaluated on a concrete non-final chunk. -/
theorem C3_chaining_vector_update_witness :
    (⟨operation_mode_t.OP_ENCRYPT, tail_bytes (List.replicate 16 7) 16, 16, 64,
        false, false⟩ : session_state_t).iv
      = tail_bytes (List.replicate 16 7) 16 :=
  (C3_chaining_vector_update id_cipher id_cipher 1024 .OP_ENCRYPT
    (List.replicate 16 7) 16 ⟨.OP_ENCRYPT, default_key, 0, 64, false, false⟩
    default_key (List.replicate 16 7) 16
    ⟨.OP_ENCRYPT, tail_bytes (List.replicate 16 7) 16, 16, 64, false, false⟩
    (by decide)).1 rfl

/- ------------------------------------------------------------------ -/
/- C9                                                                 -/
/- ------------------------------------------------------------------ -/

/-- C9: on Decrypt, the final-chunk padding-removal path is entered only
    when the last decrypted byte lies in 1..16; when that byte is 0 or
    greater than 16 the chunk result is the raw decryption with its length
    unchanged, pkcs7_unpadding never being consulted - even for trailing
    patterns it would accept. -/
theorem C9_unpad_guard :
    ∀ (Cenc Cdec : List Nat → List Nat → List Nat → List Nat) (cap : Nat)
      (input_data : List Nat) (input_len : Nat)
      (s : session_state_t) (key : List Nat),
      s.is_last_chunk = true →
      ((Cdec key s.iv (input_data.take input_len)).getD (input_len - 1) 0 = 0 ∨
        16 < (Cdec key s.iv (input_data.take input_len)).getD (input_len - 1) 0) →
      process_file_chunk_with_key Cenc Cdec cap .OP_DECRYPT input_data input_len
          s key
        = some (Cdec key s.iv (input_data.take input_len), input_len,
            { s with iv := tail_bytes input_data input_len,
                     total_processed := s.total_processed + input_len }) := by
  intro Cenc Cdec cap input_data input_len s key hlast hguard
  simp only [process_file_chunk_with_key, hlast, if_true]
  rw [if_neg (by omega)]

/-- C9 witness: a 32-byte final chunk decrypting to bytes all equal to 20 -
    a pattern pkcs7_unpadding by itself would strip to 12 bytes - is
    returned with its full 32-byte length. -/
theorem C9_unpad_guard_witness :
    pkcs7_unpadding (List.replicate 32 20) 32 = some 12 ∧
    process_file_chunk_with_key id_cipher id_cipher 1024 .OP_DECRYPT
        (List.replicate 32 20) 32
        ⟨.OP_DECRYPT, default_key, 0, 32, false, true⟩ default_key
      = some (id_cipher default_key
            (⟨operation_mode_t.OP_DECRYPT, default_key, 0, 32, false, true⟩ :
              session_state_t).iv ((List.replicate 32 20).take 32), 32,
          { (⟨operation_mode_t.OP_DECRYPT, default_key, 0, 32, false, true⟩ :
              session_state_t) with
              iv := tail_bytes (List.replicate 32 20) 32,
              total_processed :=
                (⟨operation_mode_t.OP_DECRYPT, default_key, 0, 32, false, true⟩ :
                  session_state_t).total_processed + 32 }) :=
  ⟨by decide,
   C9_unpad_guard id_cipher id_cipher 1024 (List.replicate 32 20) 32
     ⟨.OP_DECRYPT, default_key, 0, 32, false, true⟩ default_key rfl (by decide)⟩

/- ------------------------------------------------------------------ -/
/- C2                                                                 -/
/- ------------------------------------------------------------------ -/

/-- C2 counterexample: in the end-to-end Encrypt scenario (default key and
    IV, declared size 16, one 16-byte chunk 0x00..0x0F, reference capacity
    1024, cipher instantiated to a degenerate chunk cipher - the line
    structure is cipher-independent), the device does NOT emit
    CHUNK_PROCESSED:16->32: the block-aligned final chunk is not padded and
    the emitted line is CHUNK_PROCESSED:16->16. -/
theorem C2_scenario_counterexample :
    Msg.chunkProcessed 16 32 ∉
        (new_stream_streaming id_cipher id_cipher .OP_ENCRYPT default_key
          default_key 1024 16 [0, 1, 2, 3, 4, 5, 6, 7, 8, 9, 10, 11, 12, 13, 14,
            15]).msgs ∧
      Msg.chunkProcessed 16 16 ∈
        (new_stream_streaming id_cipher id_cipher .OP_ENCRYPT default_key
          default_key 1024 16 [0, 1, 2, 3, 4, 5, 6, 7, 8, 9, 10, 11, 12, 13, 14,
            15]).msgs := by
  decide

/-- C2 (amended): in the end-to-end Encrypt scenario with default key,
    default IV, declared size 16 and a single 16-byte chunk 0x00..0x0F, the
    device does not pad the block-aligned final chunk; it ciphers the 16
    bytes as-is and emits exactly one WAIT_CHUNK:16, one CHUNK_RECEIVED:16,
    one B64: line, one CHUNK_PROCESSED:16->16 (output length 16),
    PROGRESS:100%, then STREAM_COMPLETE, the summary, and SUCCESS - for
    every choice of the external cipher primitive. -/
theorem C2_scenario_amended :
    ∀ Cenc Cdec : List Nat → List Nat → List Nat → List Nat,
      (new_stream_streaming Cenc Cdec .OP_ENCRYPT default_key default_key 1024 16
          [0, 1, 2, 3, 4, 5, 6, 7, 8, 9, 10, 11, 12, 13, 14, 15]).msgs
        = [Msg.waitChunk 16, Msg.chunkReceived 16,
           Msg.b64 (b64_encode_groups ((Cenc default_key default_key
             [0, 1, 2, 3, 4, 5, 6, 7, 8, 9, 10, 11, 12, 13, 14, 15]).take 16)),
           Msg.chunkProcessed 16 16, Msg.progress 100,
           Msg.streamComplete, Msg.summary 16 16 1, Msg.success] := by
  intro Cenc Cdec
  rfl

/- ------------------------------------------------------------------ -/
/- Helper lemmas about the chunk processor and the loop               -/
/- ------------------------------------------------------------------ -/

lemma pkcs7_unpadding_le (data : List Nat) (len m : Nat)
    (h : pkcs7_unpadding data len = some m) : m ≤ len := by
  simp only [pkcs7_unpadding] at h
  split_ifs at h
  · injection h with h
    omega

/-- The chunk processor never fails on an input no longer than the chunk
    capacity. -/
lemma process_ne_none
    (Cenc Cdec : List Nat → List Nat → List Nat → List Nat) (cap : Nat)
    (mode : operation_mode_t) (input_data : List Nat) (input_len : Nat)
    (s : session_state_t) (key : List Nat) (hle : input_len ≤ cap) :
    process_file_chunk_with_key Cenc Cdec cap mode input_data input_len s key
      ≠ none := by
  cases mode with
  | OP_ENCRYPT =>
    simp only [process_file_chunk_with_key]
    split_ifs with h1
    · simp
    · simp
  | OP_DECRYPT =>
    simp only [process_file_chunk_with_key]
    simp

/-- A successful chunk advances total_processed by the input length. -/
lemma process_total_processed
    (Cenc Cdec : List Nat → List Nat → List Nat → List Nat) (cap : Nat)
    (mode : operation_mode_t) (input_data : List Nat) (input_len : Nat)
    (s : session_state_t) (key : List Nat)
    (o : List Nat) (ol : Nat) (s2 : session_state_t)
    (h : process_file_chunk_with_key Cenc Cdec cap mode input_data input_len s key
          = some (o, ol, s2)) :
    s2.total_processed = s.total_processed + input_len := by
  cases mode with
  | OP_ENCRYPT =>
    simp only [process_file_chunk_with_key] at h
    split_ifs at h with h1
    · have h3 := congrArg (fun p => (p.2.2.total_processed : Nat))
        (Option.some.inj h)
      exact h3.symm
    · have h3 := congrArg (fun p => (p.2.2.total_processed : Nat))
        (Option.some.inj h)
      exact h3.symm
  | OP_DECRYPT =>
    simp only [process_file_chunk_with_key] at h
    have h3 := congrArg (fun p => (p.2.2.total_processed : Nat))
      (Option.some.inj h)
    exact h3.symm

/-- On inputs no longer than a block-aligned capacity, the reported output
    length never exceeds the capacity (padding can only round an unaligned
    final chunk up to the capacity). -/
lemma process_out_len_le
    (Cenc Cdec : List Nat → List Nat → List Nat → List Nat) (cap : Nat)
    (mode : operation_mode_t) (input_data : List Nat) (input_len : Nat)
    (s : session_state_t) (key : List Nat)
    (o : List Nat) (ol : Nat) (s2 : session_state_t)
    (hcap16 : cap % 16 = 0) (hle : input_len ≤ cap)
    (h : process_file_chunk_with_key Cenc Cdec cap mode input_data input_len s key
          = some (o, ol, s2)) : ol ≤ cap := by
  cases mode with
  | OP_ENCRYPT =>
    simp only [process_file_chunk_with_key] at h
    split_ifs at h with h1
    · have hol := congrArg (fun p => (p.2.1 : Nat)) (Option.some.inj h)
      simp only at hol
      rw [← hol]
      have hm : (input_data.take input_len).length ≤ input_len :=
        by simp [List.length_take_le]
      have hpl : (pkcs7_padding (input_data.take input_len) 16).length
          = (input_data.take input_len).length
            + (16 - (input_data.take input_len).length % 16) := by
        simp [pkcs7_padding]
      rw [hpl]
      omega
    · have hol := congrArg (fun p => (p.2.1 : Nat)) (Option.some.inj h)
      simp only at hol
      omega
  | OP_DECRYPT =>
    simp only [process_file_chunk_with_key] at h
    have hol := congrArg (fun p => (p.2.1 : Nat)) (Option.some.inj h)
    simp only at hol
    split_ifs at hol with hg1 hg2
    · rcases hu : pkcs7_unpadding (Cdec key s.iv (input_data.take input_len))
          input_len with _ | m
      · rw [hu] at hol
        simp only at hol
        omega
      · rw [hu] at hol
        simp only at hol
        have := pkcs7_unpadding_le _ _ _ hu
        omega
    · simp only at hol
      omega
    · simp only at hol
      omega
/-- With the full declared supply available, the streaming loop consumes
    everything: it finishes with received = declared size and processed
    advanced by exactly the outstanding bytes. -/
lemma stream_loop_completes
    (Cenc Cdec : List Nat → List Nat → List Nat → List Nat)
    (mode : operation_mode_t) (key : List Nat) (cap fs : Nat) (hcap : 0 < cap) :
    ∀ (fuel : Nat) (s : session_state_t) (pending : List Nat) (tr cc : Nat),
      pending.length = fs - tr → tr ≤ fs → fs - tr ≤ fuel →
      (stream_loop Cenc Cdec mode key cap fs fuel s pending tr cc).received = fs ∧
      (stream_loop Cenc Cdec mode key cap fs fuel s pending tr cc).processed
        = s.total_processed + (fs - tr) := by
  intro fuel
  induction fuel with
  | zero =>
    intro s pending tr cc hp htr hf
    simp only [stream_loop]
    constructor
    · omega
    · omega
  | succ fuel ih =>
    intro s pending tr cc hp htr hf
    simp only [stream_loop]
    by_cases h1 : tr < fs
    · rw [if_pos h1]
      set cs : Nat := if fs - tr > cap then cap else fs - tr with hcs
      have hcsf : cs ≤ cap ∧ cs ≤ fs - tr ∧ 1 ≤ cs := by
        rw [hcs]
        split_ifs with hgt <;> omega
      rw [if_neg (by omega)]
      obtain ⟨⟨o, ol, s2⟩, hp'⟩ := Option.ne_none_iff_exists.mp
        (process_ne_none Cenc Cdec cap mode (pending.take cs) cs
          (if fs ≤ tr + cs then { s with is_last_chunk := true } else s) key
          hcsf.1)
      rw [← hp']
      have htp := process_total_processed Cenc Cdec cap mode (pending.take cs) cs
        (if fs ≤ tr + cs then { s with is_last_chunk := true } else s) key
        o ol s2 hp'.symm
      have htp2 : (if fs ≤ tr + cs then { s with is_last_chunk := true } else s
          : session_state_t).total_processed = s.total_processed := by
        split_ifs <;> rfl
      have hrest := ih s2 (pending.drop cs) (tr + cs) (cc + 1)
        (by simp [hp]; omega) (by omega) (by omega)
      simp only []
      refine ⟨hrest.1, ?_⟩
      rw [hrest.2]
      rw [htp, htp2]
      omega
    · rw [if_neg h1]
      constructor
      · simp only []
        omega
      · simp only []
        omega

/-- With a block-aligned capacity of at most 1024, no iteration of the
    streaming loop can emit the base64-buffer-overflow error line. -/
lemma stream_loop_no_b64Error
    (Cenc Cdec : List Nat → List Nat → List Nat → List Nat)
    (mode : operation_mode_t) (key : List Nat) (cap fs : Nat)
    (hcap16 : cap % 16 = 0) (hcap : cap ≤ 1024) :
    ∀ (fuel : Nat) (s : session_state_t) (pending : List Nat) (tr cc : Nat),
      Msg.b64Error ∉ (stream_loop Cenc Cdec mode key cap fs fuel s pending tr cc).msgs := by
  intro fuel
  induction fuel with
  | zero =>
    intro s pending tr cc
    simp [stream_loop]
  | succ fuel ih =>
    intro s pending tr cc
    simp only [stream_loop]
    by_cases h1 : tr < fs
    · rw [if_pos h1]
      set cs : Nat := if fs - tr > cap then cap else fs - tr with hcs
      have hcsle : cs ≤ cap := by
        rw [hcs]
        split_ifs with hgt <;> omega
      by_cases h2 : pending.length < cs
      · rw [if_pos h2]
        simp
      · rw [if_neg h2]
        rcases hp' : process_file_chunk_with_key Cenc Cdec cap mode
            (pending.take cs) cs
            (if fs ≤ tr + cs then { s with is_last_chunk := true } else s) key
          with _ | ⟨o, ol, s2⟩
        · simp only [hp']
          simp
        · have hol := process_out_len_le Cenc Cdec cap mode (pending.take cs) cs
            (if fs ≤ tr + cs then { s with is_last_chunk := true } else s) key
            o ol s2 hcap16 hcsle hp'
          have hsend : send_encrypted_data_base64 o ol ≠ Msg.b64Error := by
            simp only [send_encrypted_data_base64]
            rw [if_neg (by omega)]
            simp
          have hih := ih s2 (pending.drop cs) (tr + cs) (cc + 1)
          simp only [hp']
          simp [List.mem_cons, hih, Ne.symm hsend]
    · rw [if_neg h1]
      simp

/- ------------------------------------------------------------------ -/
/- C10                                                                -/
/- ------------------------------------------------------------------ -/

/-- C10: every chunk the streaming loop produces has a reported output
    length of at most 1024 bytes (chunk length is min(1024, remaining), an
    unaligned final chunk pads to at most 1024), the computed base64 length
    4*((len+2)/3) is then at most 1368, strictly below the 1500-byte encode
    buffer, so send_encrypted_data_base64 emits its B64 line for every
    successfully ciphered chunk and the overflow error line is unreachable
    from the streaming loop. -/
theorem C10_b64_buffer_unreachable :
    (∀ (data : List Nat) (len : Nat), len ≤ 1024 →
      4 * ((len + 2) / 3) ≤ 1368 ∧
      send_encrypted_data_base64 data len
        = Msg.b64 (b64_encode_groups (data.take len))) ∧
    (∀ (Cenc Cdec : List Nat → List Nat → List Nat → List Nat)
       (mode : operation_mode_t) (input_data : List Nat) (input_len : Nat)
       (s : session_state_t) (key : List Nat)
       (o : List Nat) (ol : Nat) (s2 : session_state_t),
      input_len ≤ CHUNK_SIZE →
      process_file_chunk_with_key Cenc Cdec CHUNK_SIZE mode input_data input_len
          s key = some (o, ol, s2) →
      ol ≤ 1024) ∧
    (∀ (Cenc Cdec : List Nat → List Nat → List Nat → List Nat)
       (mode : operation_mode_t) (key iv : List Nat) (fs : Nat) (data : List Nat),
      Msg.b64Error ∉
        (new_stream_streaming Cenc Cdec mode key iv CHUNK_SIZE fs data).msgs) := by
  refine ⟨?_, ?_, ?_⟩
  · intro data len hle
    refine ⟨by omega, ?_⟩
    simp only [send_encrypted_data_base64]
    rw [if_neg (by omega)]
  · intro Cenc Cdec mode input_data input_len s key o ol s2 hle h
    exact process_out_len_le Cenc Cdec CHUNK_SIZE mode input_data input_len s key
      o ol s2 (by decide) hle h
  · intro Cenc Cdec mode key iv fs data
    have h := stream_loop_no_b64Error Cenc Cdec mode key CHUNK_SIZE fs
      (by decide) (by decide) fs ⟨mode, iv, 0, fs, false, false⟩ data 0 0
    simp only [new_stream_streaming, List.mem_append]
    rintro (hmem | hmem)
    · exact h hmem
    · split_ifs at hmem <;> simp_all

/-- C10 witness: the bound evaluated at a 3-byte chunk, and the emitted
    line for it. -/
theorem C10_b64_buffer_unreachable_witness :
    4 * ((3 + 2) / 3) ≤ 1368 ∧
    send_encrypted_data_base64 [1, 2, 3] 3
      = Msg.b64 (b64_encode_groups (([1, 2, 3] : List Nat).take 3)) :=
  C10_b64_buffer_unreachable.1 [1, 2, 3] 3 (by omega)

/- ------------------------------------------------------------------ -/
/- C8                                                                 -/
/- ------------------------------------------------------------------ -/

/-- C8: a padding-removal failure on the final decrypted chunk is
    non-fatal: the chunk processor succeeds, returning the decrypted buffer
    and its length exactly as the cipher produced them (so the chunk is
    reported with the full un-stripped length), and a decrypt stream whose
    declared bytes are all supplied always runs to completion, emitting
    STREAM_COMPLETE, the summary and SUCCESS. -/
theorem C8_unpad_failure_nonfatal :
    (∀ (Cenc Cdec : List Nat → List Nat → List Nat → List Nat) (cap : Nat)
       (input_data : List Nat) (input_len : Nat) (s : session_state_t)
       (key : List Nat),
      s.is_last_chunk = true →
      pkcs7_unpadding (Cdec key s.iv (input_data.take input_len)) input_len
          = none →
      process_file_chunk_with_key Cenc Cdec cap .OP_DECRYPT input_data input_len
          s key
        = some (Cdec key s.iv (input_data.take input_len), input_len,
            { s with iv := tail_bytes input_data input_len,
                     total_processed := s.total_processed + input_len })) ∧
    (∀ (Cenc Cdec : List Nat → List Nat → List Nat → List Nat)
       (key iv : List Nat) (cap fs : Nat) (data : List Nat),
      0 < cap → data.length = fs →
      ∃ k, List.IsSuffix
          [Msg.streamComplete, Msg.summary fs fs k, Msg.success]
          (new_stream_streaming Cenc Cdec .OP_DECRYPT key iv cap fs data).msgs) := by
  constructor
  · intro Cenc Cdec cap input_data input_len s key hlast hunpad
    simp only [process_file_chunk_with_key, hlast, if_true]
    split_ifs with hg
    · simp only [hunpad]
    · rfl
  · intro Cenc Cdec key iv cap fs data hcap hlen
    simp only [new_stream_streaming]
    set r := stream_loop Cenc Cdec .OP_DECRYPT key cap fs fs
      ⟨.OP_DECRYPT, iv, 0, fs, false, false⟩ data 0 0 with hr
    have hc := stream_loop_completes Cenc Cdec .OP_DECRYPT key cap fs hcap fs
      ⟨.OP_DECRYPT, iv, 0, fs, false, false⟩ data 0 0 (by simpa using hlen)
      (Nat.zero_le fs) (by omega)
    rw [← hr] at hc
    have hrec : r.received = fs := hc.1
    have hproc : r.processed = fs := by
      rw [hc.2]
      simp
    refine ⟨r.chunks, ?_⟩
    rw [hrec, hproc, if_pos rfl]
    exact ⟨r.msgs, rfl⟩

/-- C8 witness: a single-chunk decrypt stream whose 16 decrypted bytes end
    in the byte 9 with mismatched trailing bytes - pkcs7_unpadding fails -
    still reports the full length and completes with SUCCESS. -/
theorem C8_unpad_failure_nonfatal_witness :
    process_file_chunk_with_key id_cipher id_cipher 1024 .OP_DECRYPT
        [0, 1, 2, 3, 4, 5, 6, 7, 8, 9, 10, 11, 12, 13, 14, 9] 16
        ⟨.OP_DECRYPT, default_key, 0, 16, false, true⟩ default_key
      = some (id_cipher default_key
            (⟨operation_mode_t.OP_DECRYPT, default_key, 0, 16, false, true⟩ :
              session_state_t).iv
            (([0, 1, 2, 3, 4, 5, 6, 7, 8, 9, 10, 11, 12, 13, 14, 9] :
              List Nat).take 16), 16,
          { (⟨operation_mode_t.OP_DECRYPT, default_key, 0, 16, false, true⟩ :
              session_state_t) with
              iv := tail_bytes [0, 1, 2, 3, 4, 5, 6, 7, 8, 9, 10, 11, 12, 13, 14, 9] 16,
              total_processed := 0 + 16 }) ∧
    (∃ k, List.IsSuffix [Msg.streamComplete, Msg.summary 16 16 k, Msg.success]
        (new_stream_streaming id_cipher id_cipher .OP_DECRYPT default_key
          default_key 1024 16
          [0, 1, 2, 3, 4, 5, 6, 7, 8, 9, 10, 11, 12, 13, 14, 9]).msgs) :=
  ⟨C8_unpad_failure_nonfatal.1 id_cipher id_cipher 1024
      [0, 1, 2, 3, 4, 5, 6, 7, 8, 9, 10, 11, 12, 13, 14, 9] 16
      ⟨.OP_DECRYPT, default_key, 0, 16, false, true⟩ default_key rfl (by decide),
   C8_unpad_failure_nonfatal.2 id_cipher id_cipher default_key default_key 1024 16
      [0, 1, 2, 3, 4, 5, 6, 7, 8, 9, 10, 11, 12, 13, 14, 9] (by omega) (by decide)⟩

/- ------------------------------------------------------------------ -/
/- Helper lemmas for the round-trip (C1)                              -/
/- ------------------------------------------------------------------ -/

/-- Once everything declared has been received, the loop stops at once. -/
lemma stream_loop_done
    (Cenc Cdec : List Nat → List Nat → List Nat → List Nat)
    (mode : operation_mode_t) (key : List Nat) (cap fs : Nat)
    (fuel : Nat) (s : session_state_t) (pending : List Nat) (tr cc : Nat)
    (h : fs ≤ tr) :
    stream_loop Cenc Cdec mode key cap fs fuel s pending tr cc
      = ⟨[], [], tr, s.total_processed, cc⟩ := by
  cases fuel with
  | zero => simp [stream_loop]
  | succ fuel =>
    simp only [stream_loop]
    rw [if_neg (by omega)]

/-- A successful chunk never changes the is_last_chunk flag. -/
lemma process_is_last
    (Cenc Cdec : List Nat → List Nat → List Nat → List Nat) (cap : Nat)
    (mode : operation_mode_t) (input_data : List Nat) (input_len : Nat)
    (s : session_state_t) (key : List Nat)
    (o : List Nat) (ol : Nat) (s2 : session_state_t)
    (h : process_file_chunk_with_key Cenc Cdec cap mode input_data input_len s key
          = some (o, ol, s2)) :
    s2.is_last_chunk = s.is_last_chunk := by
  cases mode with
  | OP_ENCRYPT =>
    simp only [process_file_chunk_with_key] at h
    split_ifs at h with h1
    · have h3 := congrArg (fun p => (p.2.2.is_last_chunk : Bool))
        (Option.some.inj h)
      exact h3.symm
    · have h3 := congrArg (fun p => (p.2.2.is_last_chunk : Bool))
        (Option.some.inj h)
      exact h3.symm
  | OP_DECRYPT =>
    simp only [process_file_chunk_with_key] at h
    have h3 := congrArg (fun p => (p.2.2.is_last_chunk : Bool))
      (Option.some.inj h)
    exact h3.symm

lemma getD_drop (l : List Nat) (n i d : Nat) :
    (l.drop n).getD i d = l.getD (n + i) d := by
  simp [List.getD_eq_getElem?_getD, List.getElem?_drop]

/-- A trailing pad pattern survives dropping a prefix that leaves at least
    16 bytes. -/
lemma looks_padded_drop (d : List Nat) (cap : Nat)
    (h16 : 16 ≤ d.length - cap) (hle : cap ≤ d.length)
    (h : looks_padded (d.drop cap)) : looks_padded d := by
  obtain ⟨h1, h2, h3⟩ := h
  have hlen : (d.drop cap).length = d.length - cap := by simp
  have hlast : (d.drop cap).getD ((d.drop cap).length - 1) 0
      = d.getD (d.length - 1) 0 := by
    rw [hlen, getD_drop]
    congr 1
    omega
  rw [hlast] at h1 h2 h3
  refine ⟨h1, h2, ?_⟩
  intro j hj
  have h4 := h3 j hj
  rw [hlen, getD_drop] at h4
  have he : cap + (d.length - cap - d.getD (d.length - 1) 0 + j)
      = d.length - d.getD (d.length - 1) 0 + j := by omega
  rw [he] at h4
  exact h4

/-- The byte length of the output stream the Encrypt loop produces on a
    fully supplied plaintext: the plaintext length rounded up to the next
    multiple of 16 (unchanged when already aligned). -/
lemma enc_loop_out_length
    (Cenc Cdec : List Nat → List Nat → List Nat → List Nat) (key : List Nat)
    (cap : Nat) (hcap16 : cap % 16 = 0) (hcap : 0 < cap)
    (hElen : ∀ k v d, (Cenc k v d).length = d.length) :
    ∀ (fuel : Nat) (d : List Nat) (etr efs ecc : Nat) (sE : session_state_t),
      d.length ≤ fuel →
      efs = etr + d.length →
      sE.is_last_chunk = false →
      (stream_loop Cenc Cdec .OP_ENCRYPT key cap efs fuel sE d etr ecc).out.length
        = d.length + (16 - d.length % 16) % 16 := by
  intro fuel
  induction fuel with
  | zero =>
    intro d etr efs ecc sE hf hefs hlast
    have hd : d.length = 0 := by omega
    rw [stream_loop_done Cenc Cdec .OP_ENCRYPT key cap efs 0 sE d etr ecc
      (by omega)]
    simp [hd]
  | succ fuel ih =>
    intro d etr efs ecc sE hf hefs hlast
    by_cases hd0 : d.length = 0
    · rw [stream_loop_done Cenc Cdec .OP_ENCRYPT key cap efs (fuel + 1) sE d etr
        ecc (by omega)]
      simp [hd0]
    · simp only [stream_loop]
      rw [if_pos (by omega)]
      set cs : Nat := if efs - etr > cap then cap else efs - etr with hcs
      have hcsf : (d.length > cap ∧ cs = cap) ∨ (d.length ≤ cap ∧ cs = d.length) := by
        rw [hcs]
        split_ifs with hgt <;> omega
      rcases hcsf with ⟨hgt, hcseq⟩ | ⟨hle, hcseq⟩
      · -- an intermediate full chunk
        rw [if_neg (by omega)]
        have hnl : ¬ (efs ≤ etr + cs) := by omega
        rw [if_neg hnl]
        have hproc : process_file_chunk_with_key Cenc Cdec cap .OP_ENCRYPT
            (d.take cs) cs sE key
            = some (Cenc key sE.iv ((d.take cs).take cs), cs,
                { sE with
                    iv := tail_bytes (Cenc key sE.iv ((d.take cs).take cs)) cs,
                    total_processed := sE.total_processed + cs }) := by
          simp only [process_file_chunk_with_key, hlast]
          rw [if_neg (by simp)]
        rw [hproc]
        simp only [List.length_append]
        have hih := ih (d.drop cs) (etr + cs) efs (ecc + 1)
          ({ sE with
              iv := tail_bytes (Cenc key sE.iv ((d.take cs).take cs)) cs,
              total_processed := sE.total_processed + cs }) (by simp; omega)
          (by simp; omega) hlast
        rw [hih]
        have hco : (Cenc key sE.iv ((d.take cs).take cs)).length = cs := by
          rw [hElen]
          simp
          omega
        have hto : ((Cenc key sE.iv ((d.take cs).take cs)).take cs).length = cs := by
          simp [hco]
        rw [hto]
        have hdl : (d.drop cs).length = d.length - cs := by simp
        rw [hdl]
        omega
      · -- the final chunk
        rw [if_neg (by omega)]
        have hl : efs ≤ etr + cs := by omega
        rw [if_pos hl]
        have htake : d.take cs = d := by
          rw [hcseq]
          exact List.take_length d
        by_cases hal : cs % 16 = 0
        · -- aligned final chunk: no padding
          have hproc : process_file_chunk_with_key Cenc Cdec cap .OP_ENCRYPT
              (d.take cs) cs { sE with is_last_chunk := true } key
              = some (Cenc key sE.iv ((d.take cs).take cs), cs,
                  { sE with
                      is_last_chunk := true,
                      iv := tail_bytes (Cenc key sE.iv ((d.take cs).take cs)) cs,
                      total_processed := sE.total_processed + cs }) := by
            simp only [process_file_chunk_with_key]
            rw [if_neg (by simp [hal])]
          rw [hproc]
          simp only [List.length_append]
          rw [stream_loop_done Cenc Cdec .OP_ENCRYPT key cap efs fuel _ _ _ _
            (by omega)]
          have hco : (Cenc key sE.iv ((d.take cs).take cs)).length = cs := by
            rw [hElen, htake, htake]
            omega
          have hto : ((Cenc key sE.iv ((d.take cs).take cs)).take cs).length = cs := by
            simp [hco]
          simp only [hto]
          simp
          omega
        · -- unaligned final chunk: padded
          have hproc : process_file_chunk_with_key Cenc Cdec cap .OP_ENCRYPT
              (d.take cs) cs { sE with is_last_chunk := true } key
              = some (Cenc key sE.iv (pkcs7_padding ((d.take cs).take cs) 16),
                  (pkcs7_padding ((d.take cs).take cs) 16).length,
                  { sE with
                      is_last_chunk := true,
                      iv := tail_bytes
                        (Cenc key sE.iv (pkcs7_padding ((d.take cs).take cs) 16))
                        (pkcs7_padding ((d.take cs).take cs) 16).length,
                      total_processed := sE.total_processed + cs }) := by
            simp only [process_file_chunk_with_key]
            rw [if_pos (by simp [hal]), if_pos (by omega)]
          rw [hproc]
          simp only [List.length_append]
          rw [stream_loop_done Cenc Cdec .OP_ENCRYPT key cap efs fuel _ _ _ _
            (by omega)]
          have hpl : (pkcs7_padding ((d.take cs).take cs) 16).length
              = cs + (16 - cs % 16) := by
            simp [pkcs7_padding, htake]
            omega
          have hco : (Cenc key sE.iv (pkcs7_padding ((d.take cs).take cs) 16)).length
              = cs + (16 - cs % 16) := by
            rw [hElen, hpl]
          have hto : ((Cenc key sE.iv (pkcs7_padding ((d.take cs).take cs) 16)).take
              (pkcs7_padding ((d.take cs).take cs) 16).length).length
              = cs + (16 - cs % 16) := by
            simp [hco, hpl]
          rw [hto]
          simp
          omega

lemma take_len_of_length_eq (l : List Nat) (n : Nat) (h : l.length = n) :
    l.take n = l := by
  subst h
  exact List.take_length l

lemma take_append_of_length_eq (l₁ l₂ : List Nat) (n : Nat) (h : l₁.length = n) :
    (l₁ ++ l₂).take n = l₁ := by
  subst h
  exact List.take_left l₁ l₂

lemma drop_append_of_length_eq (l₁ l₂ : List Nat) (n : Nat) (h : l₁.length = n) :
    (l₁ ++ l₂).drop n = l₂ := by
  subst h
  exact List.drop_left l₁ l₂

lemma roundtrip_loop
    (Cenc Cdec : List Nat → List Nat → List Nat → List Nat) (key : List Nat)
    (cap : Nat) (hcap16 : cap % 16 = 0) (hcap : 0 < cap)
    (hElen : ∀ k v d, (Cenc k v d).length = d.length)
    (hround : ∀ k v d, 16 ∣ d.length → Cdec k v (Cenc k v d) = d) :
    ∀ (fuelE : Nat) (d v : List Nat) (etr efs ecc : Nat)
      (sE : session_state_t) (fuelD : Nat) (dtr dfs dcc : Nat)
      (sD : session_state_t),
      d.length ≤ fuelE →
      efs = etr + d.length →
      sE.iv = v → sE.is_last_chunk = false →
      sD.iv = v → sD.is_last_chunk = false →
      (d.length % 16 = 0 → ¬looks_padded d) →
      dfs = dtr + (stream_loop Cenc Cdec .OP_ENCRYPT key cap efs fuelE sE d etr
          ecc).out.length →
      (stream_loop Cenc Cdec .OP_ENCRYPT key cap efs fuelE sE d etr ecc).out.length
          ≤ fuelD →
      (stream_loop Cenc Cdec .OP_DECRYPT key cap dfs fuelD sD
          (stream_loop Cenc Cdec .OP_ENCRYPT key cap efs fuelE sE d etr ecc).out
          dtr dcc).out = d := by
  intro fuelE
  induction fuelE with
  | zero =>
    intro d v etr efs ecc sE fuelD dtr dfs dcc sD hf hefs hsEiv hsEl hsDiv hsDl
      hnp hdfs hfd
    have hd : d = [] := List.length_eq_zero.mp (by omega)
    subst hd
    rw [stream_loop_done Cenc Cdec .OP_ENCRYPT key cap efs 0 sE [] etr ecc
      (by omega)] at hdfs ⊢
    simp only at hdfs ⊢
    rw [stream_loop_done Cenc Cdec .OP_DECRYPT key cap dfs fuelD sD [] dtr dcc
      (by simp at hdfs; omega)]
  | succ fuelE ih =>
    intro d v etr efs ecc sE fuelD dtr dfs dcc sD hf hefs hsEiv hsEl hsDiv hsDl
      hnp hdfs hfd
    by_cases hd0 : d.length = 0
    · have hd : d = [] := List.length_eq_zero.mp hd0
      subst hd
      rw [stream_loop_done Cenc Cdec .OP_ENCRYPT key cap efs (fuelE + 1) sE []
        etr ecc (by omega)] at hdfs ⊢
      simp only at hdfs ⊢
      rw [stream_loop_done Cenc Cdec .OP_DECRYPT key cap dfs fuelD sD [] dtr dcc
        (by simp at hdfs; omega)]
    · by_cases hle : d.length ≤ cap
      · -- final chunk
        by_cases hal : d.length % 16 = 0
        · -- aligned final chunk: ciphered as-is
          have hEproc : process_file_chunk_with_key Cenc Cdec cap .OP_ENCRYPT d
              d.length { sE with is_last_chunk := true } key
              = some (Cenc key sE.iv d, d.length,
                  { sE with
                      is_last_chunk := true,
                      iv := tail_bytes (Cenc key sE.iv d) d.length,
                      total_processed := sE.total_processed + d.length }) := by
            simp only [process_file_chunk_with_key, List.take_length]
            rw [if_neg (by simp [hal])]
          have hENC : (stream_loop Cenc Cdec .OP_ENCRYPT key cap efs (fuelE + 1)
              sE d etr ecc).out = Cenc key v d := by
            simp only [stream_loop]
            rw [if_pos (by omega)]
            have hcs : (if efs - etr > cap then cap else efs - etr) = d.length := by
              split_ifs <;> omega
            rw [hcs]
            rw [if_neg (by omega)]
            rw [if_pos (by omega)]
            rw [List.take_length]
            rw [hEproc]
            simp only []
            rw [stream_loop_done Cenc Cdec .OP_ENCRYPT key cap efs fuelE]
            · have ht : (Cenc key sE.iv d).take d.length = Cenc key sE.iv d := by
                rw [← hElen key sE.iv d]
                exact List.take_length _
              rw [ht, hsEiv]
              simp
            · omega
          rw [hENC] at hdfs hfd ⊢
          have hclen : (Cenc key v d).length = d.length := hElen key v d
          rw [hclen] at hdfs hfd
          have hL16 : 16 ≤ d.length := by omega
          have hraw : Cdec key v (Cenc key v d) = d :=
            hround key v d (Nat.dvd_of_mod_eq_zero hal)
          have ht2 : (Cenc key v d).take d.length = Cenc key v d := by
            rw [← hclen]
            exact List.take_length _
          have hDproc : process_file_chunk_with_key Cenc Cdec cap .OP_DECRYPT
              (Cenc key v d) d.length { sD with is_last_chunk := true } key
              = some (d, d.length,
                  { sD with
                      is_last_chunk := true,
                      iv := tail_bytes (Cenc key v d) d.length,
                      total_processed := sD.total_processed + d.length }) := by
            simp only [process_file_chunk_with_key, ht2, hsDiv, hraw]
            by_cases hp : d.getD (d.length - 1) 0 ≤ 16 ∧ 0 < d.getD (d.length - 1) 0
            · rw [if_pos hp]
              have hnone : pkcs7_unpadding d d.length = none := by
                have hlp := hnp hal
                simp only [looks_padded] at hlp
                push_neg at hlp
                obtain ⟨j, hj, hne⟩ := hlp (by omega) (by omega)
                simp only [pkcs7_unpadding]
                rw [if_neg (by omega)]
                rw [if_neg (by omega)]
                rw [if_neg ?hall]
                case hall =>
                  intro hall
                  exact hne (hall j hj)
              rw [hnone]
              simp
            · rw [if_neg hp]
              simp
          cases fuelD with
          | zero => omega
          | succ fuelD =>
            simp only [stream_loop]
            rw [if_pos (by omega)]
            have hcs2 : (if dfs - dtr > cap then cap else dfs - dtr) = d.length := by
              split_ifs <;> omega
            rw [hcs2]
            rw [if_neg (by rw [hclen]; omega)]
            rw [if_pos (by omega)]
            rw [ht2]
            rw [hDproc]
            simp only []
            rw [stream_loop_done Cenc Cdec .OP_DECRYPT key cap dfs fuelD]
            · simp
            · omega
        · -- unaligned final chunk: padded, ciphered, and unpadded on decrypt
          have hplen : (pkcs7_padding d 16).length
              = d.length + (16 - d.length % 16) := by
            simp [pkcs7_padding]
          have hEproc : process_file_chunk_with_key Cenc Cdec cap .OP_ENCRYPT d
              d.length { sE with is_last_chunk := true } key
              = some (Cenc key sE.iv (pkcs7_padding d 16),
                  (pkcs7_padding d 16).length,
                  { sE with
                      is_last_chunk := true,
                      iv := tail_bytes (Cenc key sE.iv (pkcs7_padding d 16))
                        (pkcs7_padding d 16).length,
                      total_processed := sE.total_processed + d.length }) := by
            simp only [process_file_chunk_with_key, List.take_length]
            rw [if_pos (by simp [hal]), if_pos (by omega)]
          have hENC : (stream_loop Cenc Cdec .OP_ENCRYPT key cap efs (fuelE + 1)
              sE d etr ecc).out = Cenc key v (pkcs7_padding d 16) := by
            simp only [stream_loop]
            rw [if_pos (by omega)]
            have hcs : (if efs - etr > cap then cap else efs - etr) = d.length := by
              split_ifs <;> omega
            rw [hcs]
            rw [if_neg (by omega)]
            rw [if_pos (by omega)]
            rw [List.take_length]
            rw [hEproc]
            simp only []
            rw [stream_loop_done Cenc Cdec .OP_ENCRYPT key cap efs fuelE]
            · have ht : (Cenc key sE.iv (pkcs7_padding d 16)).take
                  (pkcs7_padding d 16).length = Cenc key sE.iv (pkcs7_padding d 16) := by
                rw [← hElen key sE.iv (pkcs7_padding d 16)]
                exact List.take_length _
              rw [ht, hsEiv]
              simp
            · omega
          rw [hENC] at hdfs hfd ⊢
          have hclen : (Cenc key v (pkcs7_padding d 16)).length
              = d.length + (16 - d.length % 16) := by
            rw [hElen, hplen]
          rw [hclen] at hdfs hfd
          have hLpv : d.length + (16 - d.length % 16) ≤ cap := by omega
          have hraw : Cdec key v (Cenc key v (pkcs7_padding d 16))
              = pkcs7_padding d 16 := by
            refine hround key v (pkcs7_padding d 16) ?_
            refine Nat.dvd_of_mod_eq_zero ?_
            rw [hplen]
            omega
          have ht2 : (Cenc key v (pkcs7_padding d 16)).take
              (d.length + (16 - d.length % 16))
              = Cenc key v (pkcs7_padding d 16) := by
            rw [← hclen]
            exact List.take_length _
          have hlast_byte : (pkcs7_padding d 16).getD
              (d.length + (16 - d.length % 16) - 1) 0 = 16 - d.length % 16 := by
            simp only [pkcs7_padding]
            rw [List.getD_append_right _ _ _ _ (by omega)]
            have he : d.length + (16 - d.length % 16) - 1 - d.length
                = 16 - d.length % 16 - 1 := by omega
            rw [he]
            exact getD_replicate _ _ _ _ (by omega)
          have hunpad : pkcs7_unpadding (pkcs7_padding d 16)
              (d.length + (16 - d.length % 16)) = some d.length :=
            pkcs7_unpadding_append_replicate d (16 - d.length % 16) (by omega)
          have hDproc : process_file_chunk_with_key Cenc Cdec cap .OP_DECRYPT
              (Cenc key v (pkcs7_padding d 16)) (d.length + (16 - d.length % 16))
              { sD with is_last_chunk := true } key
              = some (pkcs7_padding d 16, d.length,
                  { sD with
                      is_last_chunk := true,
                      iv := tail_bytes (Cenc key v (pkcs7_padding d 16))
                        (d.length + (16 - d.length % 16)),
                      total_processed := sD.total_processed
                        + (d.length + (16 - d.length % 16)) }) := by
            simp only [process_file_chunk_with_key, ht2, hsDiv, hraw]
            rw [hlast_byte]
            rw [if_pos trivial]
            rw [if_pos (by constructor <;> omega)]
            rw [hunpad]
          cases fuelD with
          | zero => omega
          | succ fuelD =>
            simp only [stream_loop]
            rw [if_pos (by omega)]
            have hcs2 : (if dfs - dtr > cap then cap else dfs - dtr)
                = d.length + (16 - d.length % 16) := by
              split_ifs <;> omega
            rw [hcs2]
            rw [if_neg (by rw [hclen]; omega)]
            rw [if_pos (by omega)]
            rw [ht2]
            rw [hDproc]
            simp only []
            rw [stream_loop_done Cenc Cdec .OP_DECRYPT key cap dfs fuelD]
            · rw [show pkcs7_padding d 16
                  = d ++ List.replicate (16 - d.length % 16) (16 - d.length % 16)
                  from rfl]
              rw [List.take_left]
              simp
            · omega
      · -- an intermediate full chunk
        subst hsEiv
        have hcap_lt : cap < d.length := by omega
        have htt : (d.take cap).take cap = d.take cap := by
          simp [List.take_take]
        have htlen : (d.take cap).length = cap := by
          simp
          omega
        have hEproc : process_file_chunk_with_key Cenc Cdec cap .OP_ENCRYPT
            (d.take cap) cap sE key
            = some (Cenc key sE.iv (d.take cap), cap,
                { sE with
                    iv := tail_bytes (Cenc key sE.iv (d.take cap)) cap,
                    total_processed := sE.total_processed + cap }) := by
          simp only [process_file_chunk_with_key, htt]
          rw [if_neg (by simp [hsEl])]
        have hoc : (Cenc key sE.iv (d.take cap)).length = cap := by
          rw [hElen]
          exact htlen
        have hENCstep : (stream_loop Cenc Cdec .OP_ENCRYPT key cap efs (fuelE + 1)
            sE d etr ecc).out
            = Cenc key sE.iv (d.take cap)
              ++ (stream_loop Cenc Cdec .OP_ENCRYPT key cap efs fuelE
                  { sE with
                      iv := tail_bytes (Cenc key sE.iv (d.take cap)) cap,
                      total_processed := sE.total_processed + cap }
                  (d.drop cap) (etr + cap) (ecc + 1)).out := by
          simp only [stream_loop]
          rw [if_pos (by omega)]
          have hcs : (if efs - etr > cap then cap else efs - etr) = cap := by
            split_ifs <;> omega
          rw [hcs]
          rw [if_neg (by omega)]
          rw [if_neg (by omega)]
          rw [hEproc]
          simp only []
          congr 1
          exact take_len_of_length_eq _ cap hoc
        have hrlen : (stream_loop Cenc Cdec .OP_ENCRYPT key cap efs fuelE
            { sE with
                iv := tail_bytes (Cenc key sE.iv (d.take cap)) cap,
                total_processed := sE.total_processed + cap }
            (d.drop cap) (etr + cap) (ecc + 1)).out.length
            = (d.drop cap).length + (16 - (d.drop cap).length % 16) % 16 :=
          enc_loop_out_length Cenc Cdec key cap hcap16 hcap hElen fuelE
            (d.drop cap) (etr + cap) efs (ecc + 1) _
            (by simp; omega) (by simp; omega) hsEl
        have hdroplen : (d.drop cap).length = d.length - cap := by simp
        rw [hENCstep] at hdfs hfd ⊢
        have hdfs2 : dfs = dtr + cap
            + (stream_loop Cenc Cdec .OP_ENCRYPT key cap efs fuelE
                { sE with
                    iv := tail_bytes (Cenc key sE.iv (d.take cap)) cap,
                    total_processed := sE.total_processed + cap }
                (d.drop cap) (etr + cap) (ecc + 1)).out.length := by
          simp only [List.length_append, hoc] at hdfs
          omega
        have hfd2 : cap
            + (stream_loop Cenc Cdec .OP_ENCRYPT key cap efs fuelE
                { sE with
                    iv := tail_bytes (Cenc key sE.iv (d.take cap)) cap,
                    total_processed := sE.total_processed + cap }
                (d.drop cap) (etr + cap) (ecc + 1)).out.length ≤ fuelD := by
          simp only [List.length_append, hoc] at hfd
          omega
        cases fuelD with
        | zero => omega
        | succ fuelD =>
          simp only [stream_loop]
          rw [if_pos (by omega)]
          have hcs2 : (if dfs - dtr > cap then cap else dfs - dtr) = cap := by
            split_ifs <;> omega
          rw [hcs2]
          rw [if_neg (by simp only [List.length_append, hoc]; omega)]
          rw [if_neg (by omega)]
          have htkc : (Cenc key sE.iv (d.take cap)
              ++ (stream_loop Cenc Cdec .OP_ENCRYPT key cap efs fuelE
                  { sE with
                      iv := tail_bytes (Cenc key sE.iv (d.take cap)) cap,
                      total_processed := sE.total_processed + cap }
                  (d.drop cap) (etr + cap) (ecc + 1)).out).take cap
              = Cenc key sE.iv (d.take cap) := by
            exact take_append_of_length_eq _ _ cap hoc
          rw [htkc]
          have htc1 : (Cenc key sE.iv (d.take cap)).take cap
              = Cenc key sE.iv (d.take cap) :=
            take_len_of_length_eq _ cap hoc
          have hrawB : Cdec key sD.iv ((Cenc key sE.iv (d.take cap)).take cap)
              = d.take cap := by
            rw [htc1, hsDiv]
            refine hround key sE.iv (d.take cap) ?_
            rw [htlen]
            exact Nat.dvd_of_mod_eq_zero hcap16
          have hDproc : process_file_chunk_with_key Cenc Cdec cap .OP_DECRYPT
              (Cenc key sE.iv (d.take cap)) cap sD key
              = some (d.take cap, cap,
                  { sD with
                      iv := tail_bytes (Cenc key sE.iv (d.take cap)) cap,
                      total_processed := sD.total_processed + cap }) := by
            simp only [process_file_chunk_with_key, hrawB]
            rw [if_neg (by simp [hsDl])]
          rw [hDproc]
          simp only []
          have hdrop : (Cenc key sE.iv (d.take cap)
              ++ (stream_loop Cenc Cdec .OP_ENCRYPT key cap efs fuelE
                  { sE with
                      iv := tail_bytes (Cenc key sE.iv (d.take cap)) cap,
                      total_processed := sE.total_processed + cap }
                  (d.drop cap) (etr + cap) (ecc + 1)).out).drop cap
              = (stream_loop Cenc Cdec .OP_ENCRYPT key cap efs fuelE
                  { sE with
                      iv := tail_bytes (Cenc key sE.iv (d.take cap)) cap,
                      total_processed := sE.total_processed + cap }
                  (d.drop cap) (etr + cap) (ecc + 1)).out :=
            drop_append_of_length_eq _ _ cap hoc
          rw [hdrop]
          have h16r : (d.drop cap).length % 16 = 0 → ¬looks_padded (d.drop cap) := by
            intro halr hlp
            rw [hdroplen] at halr
            have hal : d.length % 16 = 0 := by omega
            refine hnp hal ?_
            refine looks_padded_drop d cap ?_ (by omega) hlp
            omega
          have hihx := ih (d.drop cap) (tail_bytes (Cenc key sE.iv (d.take cap)) cap)
            (etr + cap) efs (ecc + 1)
            ({ sE with
                iv := tail_bytes (Cenc key sE.iv (d.take cap)) cap,
                total_processed := sE.total_processed + cap })
            fuelD (dtr + cap) dfs (dcc + 1)
            ({ sD with
                iv := tail_bytes (Cenc key sE.iv (d.take cap)) cap,
                total_processed := sD.total_processed + cap })
            (by simp; omega) (by simp; omega) rfl hsEl rfl hsDl h16r
            (by omega) (by omega)
          rw [htt, hihx]
          exact List.take_append_drop cap d

/-- C1 (amended): encrypt-then-decrypt over the streaming pipeline restores
    the plaintext for every plaintext whose trailing bytes do not mimic
    padding. -/
theorem C1_roundtrip_amended :
    ∀ (Cenc Cdec : List Nat → List Nat → List Nat → List Nat)
      (key iv : List Nat) (cap : Nat) (pt : List Nat),
      (∀ k v x, (Cenc k v x).length = x.length) →
      (∀ k v x, 16 ∣ x.length → Cdec k v (Cenc k v x) = x) →
      cap % 16 = 0 → 0 < cap →
      1 ≤ pt.length → pt.length ≤ 1000000 →
      (pt.length % 16 = 0 → ¬looks_padded pt) →
      stream_decrypt Cenc Cdec key iv cap
          (stream_encrypt Cenc Cdec key iv cap pt) = pt := by
  intro Cenc Cdec key iv cap pt hElen hround hcap16 hcap h1 h2 hnp
  simp only [stream_encrypt, stream_decrypt, new_stream_streaming]
  exact roundtrip_loop Cenc Cdec key cap hcap16 hcap hElen hround
    pt.length pt iv 0 pt.length 0 ⟨.OP_ENCRYPT, iv, 0, pt.length, false, false⟩
    (stream_loop Cenc Cdec .OP_ENCRYPT key cap pt.length pt.length
        ⟨.OP_ENCRYPT, iv, 0, pt.length, false, false⟩ pt 0 0).out.length
    0
    (stream_loop Cenc Cdec .OP_ENCRYPT key cap pt.length pt.length
        ⟨.OP_ENCRYPT, iv, 0, pt.length, false, false⟩ pt 0 0).out.length
    0
    ⟨.OP_DECRYPT, iv, 0,
      (stream_loop Cenc Cdec .OP_ENCRYPT key cap pt.length pt.length
        ⟨.OP_ENCRYPT, iv, 0, pt.length, false, false⟩ pt 0 0).out.length,
      false, false⟩
    (le_refl _) (by omega) rfl rfl rfl rfl hnp (by omega) (le_refl _)

/-- C1 counterexample: with the reference capacity 1024, a 16-byte
    plaintext ending in the byte 1 (length within 1..1,000,000, key and IV
    the 16-byte defaults, cipher instantiated to a degenerate chunk cipher
    satisfying the length and inverse laws) does NOT round-trip: the
    block-aligned final chunk is sent unpadded, and the decrypt side
    strips its plaintext tail as if it were padding. -/
theorem C1_roundtrip_counterexample :
    (List.replicate 15 0 ++ [1] : List Nat).length = 16 ∧
    1024 % 16 = 0 ∧
    (∀ k v x, (id_cipher k v x).length = x.length) ∧
    (∀ k v x, id_cipher k v (id_cipher k v x) = x) ∧
    stream_decrypt id_cipher id_cipher default_key default_key 1024
        (stream_encrypt id_cipher id_cipher default_key default_key 1024
          (List.replicate 15 0 ++ [1]))
      ≠ List.replicate 15 0 ++ [1] :=
  ⟨by decide, by decide, fun _ _ _ => rfl, fun _ _ _ => rfl, by decide⟩

/-- C1 witness: the amended round-trip evaluated on the 3-byte plaintext
    [1, 2, 3] at capacity 16. -/
theorem C1_roundtrip_amended_witness :
    stream_decrypt id_cipher id_cipher default_key default_key 16
        (stream_encrypt id_cipher id_cipher default_key default_key 16
          ([1, 2, 3] : List Nat)) = [1, 2, 3] :=
  C1_roundtrip_amended id_cipher id_cipher default_key default_key 16 [1, 2, 3]
    (fun _ _ _ => rfl) (fun _ _ _ _ => rfl) (by decide) (by decide) (by decide)
    (by decide) (by decide)

end AESStream
